import Mathlib

/-!
Verification of the Alpha Quant trading orchestration engine
(`engine_core.py`, `database_manager.py`) against its specification.

Prices, account values and volumes are modelled as rationals; broker
calls become explicit inputs (option values for data that may be
unavailable, booleans for call outcomes); the engine's mutable state
becomes explicit state passing.
-/

namespace AlphaQuant

/-- A broker tick: best bid and ask (mirrors `mt5.symbol_info_tick`). -/
structure Tick where
  bid : ℚ
  ask : ℚ
deriving DecidableEq

/-- Symbol metadata: the price increment (mirrors `mt5.symbol_info().point`). -/
structure SymbolInfo where
  point : ℚ
deriving DecidableEq

/-- Account snapshot (mirrors `mt5.account_info()`): balance and equity. -/
structure Account where
  balance : ℚ
  equity : ℚ
deriving DecidableEq

/-- Position direction, mirroring `mt5.POSITION_TYPE_BUY` / `POSITION_TYPE_SELL`. -/
inductive PosType where
  | buy
  | sell
deriving DecidableEq

/-- An open position as reported by the broker. -/
structure Position where
  ticket : ℕ
  ptype : PosType
  price_open : ℚ
  sl : ℚ
  volume : ℚ
  profit : ℚ
  swap : ℚ
deriving DecidableEq

/-- A closed deal from broker history (used by `get_daily_pnl`). -/
structure Deal where
  profit : ℚ
  commission : ℚ
  swap : ℚ
deriving DecidableEq

/-! ## Smart entry check (`TradingEngine.check_spread`) -/

/-- Outcome of `check_spread`: whether entry is admitted and whether the
RISK alert (`_send_formatted_alert("RISK", ...)`) was emitted. -/
structure SpreadCheck where
  ok : Bool
  alert : Bool
deriving DecidableEq

/-- `TradingEngine.check_spread`.  The tick and symbol info fetches may fail
(`None` in Python, `none` here), which returns `False`.  A zero `point`
raises `ZeroDivisionError` in `spread = (tick.ask - tick.bid) / symbol_info.point`,
which the surrounding `try/except` turns into `False` as well.  Otherwise
entry is rejected, with a RISK alert, exactly when `spread > max_spread`. -/
def check_spread (max_spread : ℚ) (tick : Option Tick) (info : Option SymbolInfo) :
    SpreadCheck :=
  match tick, info with
  | some t, some si =>
      if si.point = 0 then ⟨false, false⟩
      else if max_spread < (t.ask - t.bid) / si.point then ⟨false, true⟩
      else ⟨true, false⟩
  | _, _ => ⟨false, false⟩

/-! ## Dynamic position sizing (`TradingEngine.execute_trade`) -/

/-- Python `round(x, 2)`: scale by 100 and round half to even. -/
def pyRound2 (x : ℚ) : ℚ :=
  let f : ℤ := ⌊x * 100⌋
  let r : ℚ := x * 100 - (f : ℚ)
  let n : ℤ :=
    if r < 1/2 then f
    else if 1/2 < r then f + 1
    else if f % 2 = 0 then f else f + 1
  (n : ℚ) / 100

/-- The volume used by `TradingEngine.execute_trade`.  With risk-based sizing
on and a truthy (non-null, nonzero) stop, and account info available, it
computes `balance * risk_percent / (100 * |entry - sl|)` (contract size is the
hard-coded constant 100), rounds to two decimals, and clamps to `[0.01, 10.0]`.
Any other case keeps the fixed `lot_size`. -/
def execVolume (useRisk : Bool) (lot_size risk_percent : ℚ)
    (acc : Option Account) (entry : ℚ) (sl : Option ℚ) : ℚ :=
  match acc, sl with
  | some a, some s =>
      if useRisk ∧ s ≠ 0 then
        let dist := |entry - s|
        if 0 < dist then
          let cv := pyRound2 (a.balance * risk_percent / (100 * dist))
          max (1/100) (min cv 10)
        else lot_size
      else lot_size
  | _, _ => lot_size

/-- Modelled from the spec: the sizing formula as the specification states
it, `(equity * riskFraction) / (contractMultiplier * |entryPrice - stopPrice|)`,
for refinement comparison with `execVolume`, which the source builds from the
account balance. -/
def specRiskVolume (a : Account) (riskFraction mult entry stop : ℚ) : ℚ :=
  a.equity * riskFraction / (mult * |entry - stop|)

/-! ## Trailing stop (`TradingEngine.update_trailing_stops`) -/

/-- The trailing-stop candidate for a long position, exactly as computed at
`new_sl = current_price - (self.trailing_distance * point)`: a function of the
instantaneous current price only. -/
def trailCandBuy (dist point price : ℚ) : ℚ := price - dist * point

/-- The trailing-stop candidate for a short position
(`new_sl = current_price + (self.trailing_distance * point)`). -/
def trailCandSell (dist point price : ℚ) : ℚ := price + dist * point

/-- One trailing-stop pass for a long position at current (bid) price
`price`: if `profit_points >= trailing_distance` the candidate is computed
from the current price, and applied only if the stop is unset (`0`) or the
candidate is strictly higher. -/
def trailStepBuy (op dist point : ℚ) (sl price : ℚ) : ℚ :=
  if dist ≤ (price - op) / point then
    let cand := trailCandBuy dist point price
    if sl = 0 ∨ sl < cand then cand else sl
  else sl

/-- One trailing-stop pass for a short position at current (ask) price
`price`; applied only if the stop is unset or the candidate strictly lower. -/
def trailStepSell (op dist point : ℚ) (sl price : ℚ) : ℚ :=
  if dist ≤ (op - price) / point then
    let cand := trailCandSell dist point price
    if sl = 0 ∨ cand < sl then cand else sl
  else sl

/-- Stored stop of a long position after repeated trailing passes, one per
current price in the list. -/
def trailRunBuy (op dist point sl0 : ℚ) (prices : List ℚ) : ℚ :=
  prices.foldl (trailStepBuy op dist point) sl0

/-- Stored stop of a short position after repeated trailing passes. -/
def trailRunSell (op dist point sl0 : ℚ) (prices : List ℚ) : ℚ :=
  prices.foldl (trailStepSell op dist point) sl0

/-- Modelled from the spec: the candidate stop the specification describes,
computed from the running peak price, for comparison with `trailCandBuy`. -/
def specCandBuy (dist point peak : ℚ) : ℚ := peak - dist * point

/-- The prices of a history at which a long position's unrealized profit has
crossed the trailing activation distance. -/
def actBuy (op dist point : ℚ) (prices : List ℚ) : List ℚ :=
  prices.filter (fun q => dist ≤ (q - op) / point)

/-- The prices of a history at which a short position's unrealized profit has
crossed the trailing activation distance. -/
def actSell (op dist point : ℚ) (prices : List ℚ) : List ℚ :=
  prices.filter (fun q => dist ≤ (op - q) / point)

/-- Modelled from the spec: the stored stop of a long position after a price
history, per the specification's description — candidate at (running peak −
trailing distance) over the prices that crossed the activation distance,
applied through the monotone ratchet. -/
def specPeakStopBuy (op dist point sl0 : ℚ) (prices : List ℚ) : ℚ :=
  match actBuy op dist point prices with
  | [] => sl0
  | q :: rest =>
      let peak := rest.foldl max q
      let cand := peak - dist * point
      if sl0 = 0 ∨ sl0 < cand then cand else sl0

/-- Modelled from the spec: the stored stop of a short position after a price
history, using the running trough. -/
def specTroughStopSell (op dist point sl0 : ℚ) (prices : List ℚ) : ℚ :=
  match actSell op dist point prices with
  | [] => sl0
  | q :: rest =>
      let trough := rest.foldl min q
      let cand := trough + dist * point
      if sl0 = 0 ∨ cand < sl0 then cand else sl0

/-! ## Engine-initiated stop-loss updates on one position -/

/-- The engine events that can touch a position's stored stop: a trailing
pass at a current price (`update_trailing_stops`), an agent-driven ratchet
carrying a suggested stop on a HOLD signal (`run_async`), and the
break-even move that `_execute_partial_close` issues after a successful
partial close. -/
inductive SLEvent where
  | trail (price : ℚ)
  | ratchet (s : ℚ)
  | breakEven
deriving DecidableEq

/-- Effect of one engine event on the stored stop of a long position.
The trailing pass and the HOLD ratchet apply their candidate only when the
stop is unset or strictly improved; the break-even move calls
`_modify_position_sl(pos.ticket, position.price_open, symbol)` with no
guard at all, so it simply sets the stop to the open price. -/
def slStepBuy (op dist point : ℚ) (sl : ℚ) : SLEvent → ℚ
  | .trail price => trailStepBuy op dist point sl price
  | .ratchet s => if 0 < s ∧ (sl = 0 ∨ sl < s) then s else sl
  | .breakEven => op

/-- Effect of one engine event on the stored stop of a short position. -/
def slStepSell (op dist point : ℚ) (sl : ℚ) : SLEvent → ℚ
  | .trail price => trailStepSell op dist point sl price
  | .ratchet s => if 0 < s ∧ (sl = 0 ∨ s < sl) then s else sl
  | .breakEven => op

/-- Stored stop of a long position after a sequence of engine events. -/
def slRunBuy (op dist point sl0 : ℚ) (evs : List SLEvent) : ℚ :=
  evs.foldl (slStepBuy op dist point) sl0

/-- Stored stop of a short position after a sequence of engine events. -/
def slRunSell (op dist point sl0 : ℚ) (evs : List SLEvent) : ℚ :=
  evs.foldl (slStepSell op dist point) sl0

/-! ## Agent-driven stop update on HOLD (`TradingEngine.run_async`) -/

/-- The model's signal, as carried by `output.signal`. -/
inductive Signal where
  | buy
  | sell
  | hold
deriving DecidableEq

/-- The `(ticket, new_sl)` stop-modification calls issued by the HOLD branch
of `run_async`.  The branch fires only when the signal is HOLD, the carried
stop is non-null and positive, and a position is open (`pos_dir != 0`); each
open position is then updated only when the suggested stop is a strict
improvement or its current stop is unset. -/
def holdRatchetUpdates (sig : Signal) (sugg : Option ℚ) (posDir : ℤ)
    (positions : List Position) : List (ℕ × ℚ) :=
  match sig, sugg with
  | .hold, some s =>
      if 0 < s ∧ posDir ≠ 0 then
        positions.filterMap (fun p =>
          match p.ptype with
          | .buy => if p.sl = 0 ∨ s > p.sl then some (p.ticket, s) else none
          | .sell => if p.sl = 0 ∨ s < p.sl then some (p.ticket, s) else none)
      else []
  | _, _ => []

/-! ## Risk limits (`TradingEngine.check_risk_limits`, `close_all_positions`) -/

/-- `TradingEngine.get_daily_pnl`: realized P/L of the day's deals
(profit + commission + swap each) plus floating P/L of the open positions
(profit + swap each). -/
def get_daily_pnl (deals : List Deal) (positions : List Position) : ℚ :=
  (deals.map (fun d => d.profit + d.commission + d.swap)).sum +
    (positions.map (fun p => p.profit + p.swap)).sum

/-- `TradingEngine.check_risk_limits`.  Result: (safe-to-continue,
close-all-positions-was-invoked).  The equity guard fires when the floor is
nonzero, the account fetch succeeded, and equity is below the floor; the
daily-loss guard fires when the limit is nonzero and daily P/L is below its
negative.  Each guard, on firing, invokes `close_all_positions` and returns
`False`. -/
def check_risk_limits (min_equity max_daily_loss : ℚ) (acc : Option Account)
    (pnl : ℚ) : Bool × Bool :=
  if 0 < min_equity ∧ (match acc with
      | some a => decide (a.equity < min_equity)
      | none => false) = true then
    (false, true)
  else if 0 < max_daily_loss ∧ pnl < -max_daily_loss then
    (false, true)
  else (true, false)

/-- A close order sent by `close_all_positions`. -/
structure CloseReq where
  ticket : ℕ
  volume : ℚ
deriving DecidableEq

/-- `TradingEngine.close_all_positions` with no symbol filter: one close
order per broker-reported open position, full volume. -/
def close_all_requests (positions : List Position) : List CloseReq :=
  positions.map (fun p => ⟨p.ticket, p.volume⟩)

/-- The main loop's reaction to the risk check
(`if not await self.check_risk_limits(): self.running = False; break`):
the running flag after one gate evaluation. -/
def loopGate (running safe : Bool) : Bool :=
  if ¬ safe then false else running

/-! ## Partial close at-most-once machinery
(`TradingEngine.check_partial_close`, `_execute_partial_close`,
`_has_partial_close_history`, `_reconcile_state` flag restore) -/

/-- Alerts sent through `_send_formatted_alert` by the position-management
paths modelled here. -/
inductive AlertKind where
  | update
  | risk
deriving DecidableEq

/-- `TradingEngine._modify_position_sl`: returns success, and emits the
UPDATE alert only on success — a failed stop modification is only written to
the log. -/
def modifySL (ok : Bool) : Bool × List AlertKind :=
  (ok, if ok then [AlertKind.update] else [])

/-- The observable outcome of one `_execute_partial_close` run. -/
structure ScaleOutOutcome where
  brokerClosed : Bool
  slMoveOk : Bool
  memMarked : Bool
  dbMarked : Bool
  alerts : List AlertKind
deriving DecidableEq

/-- `TradingEngine._execute_partial_close`, with the outcomes of the two
broker calls as inputs.  If the partial close call fails nothing is marked;
if it succeeds, the stop move's return value is ignored and the ticket is
marked partially closed in memory and in the store regardless, the only
alert being the UPDATE alert of a successful stop move. -/
def execScaleOut (closeOk slOk : Bool) : ScaleOutOutcome :=
  if closeOk then
    let m := modifySL slOk
    ⟨true, m.1, true, true, m.2⟩
  else ⟨false, false, false, false, []⟩

/-- Engine/store/broker state relevant to the partial-close-once invariant:
the in-memory `partially_closed_tickets` set, the tickets whose store record
carries `partial_close_done`, the tickets with a "Partial Close" deal in
broker history, and the log of actually executed partial closes. -/
structure SOState where
  mem : List ℕ
  flagged : List ℕ
  hist : List ℕ
  execs : List ℕ
deriving DecidableEq

/-- Events acting on `SOState`: a `check_partial_close` visit of a ticket
whose profit-trigger eligibility and broker-call outcomes are given; the
same visit interrupted by a crash right after a successful broker close
(before any marking); and an engine restart, after which `_reconcile_state`
rebuilds the in-memory set from the store flags.  `histOk` models whether
the broker-history scan of `_has_partial_close_history` can actually see a
prior partial-close deal: the source looks back only 30 days and its bare
`except` returns `False` on any query failure, so a recorded deal may go
undetected (`histOk = false`). -/
inductive SOEvent where
  | visit (t : ℕ) (eligible histOk closeOk dbOk : Bool)
  | visitCrash (t : ℕ) (eligible histOk : Bool)
  | restart
deriving DecidableEq

/-- One step of the partial-close machinery.  A visited ticket already in
the in-memory set is skipped; an eligible ticket is cross-checked against
broker history (`_has_partial_close_history` — which detects a recorded
deal only when the scan is reliable, `t ∈ s.hist ∧ histOk`) and, when the
check detects a prior partial close, only re-marked in memory; otherwise
the partial close executes, the broker records the "Partial Close @ TP1"
deal, and on the normal path the ticket is marked in memory and (when the
DB write succeeds, `database_manager.py` swallowing write errors) flagged
in the store. -/
def soStep (s : SOState) : SOEvent → SOState
  | .visit t eligible histOk closeOk dbOk =>
      if t ∈ s.mem then s
      else if eligible then
        if t ∈ s.hist ∧ histOk then { s with mem := t :: s.mem }
        else if closeOk then
          { mem := t :: s.mem
            flagged := if dbOk then t :: s.flagged else s.flagged
            hist := t :: s.hist
            execs := t :: s.execs }
        else s
      else s
  | .visitCrash t eligible histOk =>
      if t ∈ s.mem then s
      else if eligible ∧ ¬(t ∈ s.hist ∧ histOk) then
        { s with hist := t :: s.hist, execs := t :: s.execs }
      else s
  | .restart => { s with mem := s.flagged }

/-- The partial-close machinery run from a fresh ticket lifetime. -/
def soRun (evs : List SOEvent) : SOState :=
  evs.foldl soStep ⟨[], [], [], []⟩

/-- An event whose broker-history scan is reliable: a prior partial-close
deal, if any, is within the 30-day lookback and the history query does not
fail.  Restarts carry no scan. -/
def histReliable : SOEvent → Prop
  | .visit _ _ histOk _ _ => histOk = true
  | .visitCrash _ _ histOk => histOk = true
  | .restart => True

/-- The invariant carried by the partial-close machinery: every ticket was
executed at most once, and every executed ticket has its broker-history
deal recorded. -/
def soInv (s : SOState) : Prop :=
  ∀ u, s.execs.count u ≤ 1 ∧ (u ∈ s.execs → u ∈ s.hist)

/-! ## Reconciliation (`TradingEngine._reconcile_state`, `DatabaseManager`) -/

/-- Store record status. -/
inductive TStatus where
  | tOpen
  | tClosed
deriving DecidableEq

/-- A row of the `trades` table (the fields reconciliation touches). -/
structure DBRec where
  ticket : ℕ
  status : TStatus
deriving DecidableEq

/-- A TradeStore mutation issued during reconciliation. -/
inductive Mut where
  | closeT (t : ℕ)
  | saveT (t : ℕ)
deriving DecidableEq

/-- `DatabaseManager.get_active_trades`: the rows with status OPEN. -/
def get_active_trades (store : List DBRec) : List DBRec :=
  store.filter (fun r => r.status = TStatus.tOpen)

/-- Tickets of the active rows. -/
def activeTickets (store : List DBRec) : List ℕ :=
  (get_active_trades store).map (fun r => r.ticket)

/-- `DatabaseManager.close_trade`: set status CLOSED on the row(s) with the
given ticket. -/
def close_trade (store : List DBRec) (t : ℕ) : List DBRec :=
  store.map (fun r => if r.ticket = t then { r with status := TStatus.tClosed } else r)

/-- `DatabaseManager.save_trade`: `INSERT OR REPLACE` of an OPEN row keyed
by ticket. -/
def save_trade (store : List DBRec) (t : ℕ) : List DBRec :=
  if store.any (fun r => r.ticket = t) then
    store.map (fun r => if r.ticket = t then ⟨t, TStatus.tOpen⟩ else r)
  else store ++ [⟨t, TStatus.tOpen⟩]

/-- `TradingEngine._reconcile_state`: close every active store row whose
ticket the broker no longer reports, then insert every broker position the
store does not hold as active; returns the new store and the list of store
mutations issued.  The flag-restoring branch for tickets present in both
touches only in-memory state, never the store. -/
def reconcile (store : List DBRec) (broker : List ℕ) : List DBRec × List Mut :=
  let dbT := activeTickets store
  let toClose := dbT.filter (fun t => t ∉ broker)
  let toSave := broker.filter (fun t => t ∉ dbT)
  (toSave.foldl save_trade (toClose.foldl close_trade store),
   toClose.map Mut.closeT ++ toSave.map Mut.saveT)

/-! ## Claim theorems -/

/-- Claim C8: with bid/ask data available and a positive point size, the
entry check computes the spread as (ask − bid) / point and admits exactly
when that spread is at most the ceiling (strictly greater rejects), and
every rejection emits the risk alert. -/
theorem spread_gate_strict (ms : ℚ) (t : Tick) (si : SymbolInfo) (hp : 0 < si.point) :
    ((check_spread ms (some t) (some si)).ok = true ↔ (t.ask - t.bid) / si.point ≤ ms)
    ∧ ((check_spread ms (some t) (some si)).ok = false →
        (check_spread ms (some t) (some si)).alert = true) := by
  have hne : si.point ≠ 0 := ne_of_gt hp
  by_cases h : ms < (t.ask - t.bid) / si.point
  · simp [check_spread, hne, h, not_le.mpr h]
  · simp [check_spread, hne, h, not_lt.mp h]

/-- Witness for C8 at the exact boundary: spread equal to the ceiling admits. -/
theorem spread_gate_strict_w :
    (0 : ℚ) < 1 ∧
      (((check_spread 500 (some ⟨2000, 2500⟩) (some ⟨1⟩)).ok = true ↔
          ((2500 : ℚ) - 2000) / 1 ≤ 500)
        ∧ ((check_spread 500 (some ⟨2000, 2500⟩) (some ⟨1⟩)).ok = false →
            (check_spread 500 (some ⟨2000, 2500⟩) (some ⟨1⟩)).alert = true)) :=
  ⟨by norm_num, spread_gate_strict 500 ⟨2000, 2500⟩ ⟨1⟩ (by norm_num)⟩

/-- Claim C10: the entry check fails closed — a missing tick, missing symbol
metadata, or an exception inside the check (modelled by the zero point size
that makes the spread division raise) all yield rejection. -/
theorem spread_gate_fails_closed (ms : ℚ) (tick : Option Tick) (info : Option SymbolInfo)
    (h : tick = none ∨ info = none ∨ ∃ si, info = some si ∧ si.point = 0) :
    (check_spread ms tick info).ok = false := by
  rcases h with h | h | ⟨si, hsi, hz⟩
  · subst h; cases info <;> simp [check_spread]
  · subst h; cases tick <;> simp [check_spread]
  · subst hsi; cases tick <;> simp [check_spread, hz]

/-- Witness for C10: a missing tick rejects. -/
theorem spread_gate_fails_closed_w :
    ((none : Option Tick) = none ∨ (some (⟨1⟩ : SymbolInfo)) = none ∨
        ∃ si, (some (⟨1⟩ : SymbolInfo)) = some si ∧ si.point = 0)
      ∧ (check_spread 500 none (some ⟨1⟩)).ok = false :=
  ⟨Or.inl rfl, spread_gate_fails_closed 500 none (some ⟨1⟩) (Or.inl rfl)⟩

/-- Counterexample for C3: the source sizes from the account balance, not
from equity.  With balance $10,000 but equity $9,000, risk 1 %, entry 2000
and stop 1995 the code computes 0.20 lots while the claimed equity-based
formula yields 0.18. -/
theorem sizing_uses_balance_not_equity :
    execVolume true (1/100) (1/100) (some ⟨10000, 9000⟩) 2000 (some 1995) = 1/5
    ∧ specRiskVolume ⟨10000, 9000⟩ (1/100) 100 2000 1995 = 9/50
    ∧ (1/5 : ℚ) ≠ 9/50 := by
  refine ⟨?_, by norm_num [specRiskVolume], by norm_num⟩
  norm_num [execVolume, pyRound2]

/-- Claim C3 as amended: the computed volume is (balance × riskFraction) /
(100 × |entry − stop|) — the contract multiplier being the hard-coded 100 —
rounded to two decimals then clamped to [0.01, 10.0]; with balance $10,000,
risk 1 % and stop distance $5 the result is 0.20 lots. -/
theorem sizing_formula (lot rp : ℚ) (a : Account) (entry s : ℚ)
    (hs : s ≠ 0) (hd : 0 < |entry - s|) :
    execVolume true lot rp (some a) entry (some s) =
      max (1/100) (min (pyRound2 (a.balance * rp / (100 * |entry - s|))) 10)
    ∧ execVolume true lot (1/100) (some ⟨10000, 10000⟩) 2000 (some 1995) = 1/5 := by
  constructor
  · simp [execVolume, hs, hd]
  · norm_num [execVolume, pyRound2]

/-- Witness for C3 as amended at a concrete sizing input. -/
theorem sizing_formula_w :
    ((1995 : ℚ) ≠ 0 ∧ 0 < |(2000 : ℚ) - 1995|)
    ∧ (execVolume true (1/100) (1/100) (some ⟨10000, 10000⟩) 2000 (some 1995) =
        max (1/100) (min (pyRound2 ((10000 : ℚ) * (1/100) / (100 * |(2000 : ℚ) - 1995|))) 10)
      ∧ execVolume true (1/100) (1/100) (some ⟨10000, 10000⟩) 2000 (some 1995) = (1:ℚ)/5) :=
  ⟨⟨by norm_num, by norm_num⟩,
    sizing_formula (1/100) (1/100) ⟨10000, 10000⟩ 2000 1995 (by norm_num) (by norm_num)⟩

/-- Counterexample for C7: after a successful partial close whose follow-up
stop move fails, the ticket is still marked partially closed but the alert
list is empty — the failed stop move is only logged, no alert is raised for
manual stop verification. -/
theorem sl_move_failure_no_alert :
    (execScaleOut true false).memMarked = true
    ∧ (execScaleOut true false).dbMarked = true
    ∧ (execScaleOut true false).alerts = [] := by
  constructor
  · rfl
  · exact ⟨rfl, rfl⟩

/-- Claim C7 as amended: if the partial-close call fails, nothing is marked
and the visit leaves the state unchanged so a later cycle retries; if the
stop move fails after a successful partial close, the ticket is still marked
partially closed in memory and store, but the failure is only logged — no
alert is raised. -/
theorem scale_out_error_handling (s : SOState) (t : ℕ) (elig hOk dbOk : Bool)
    (hm : t ∉ s.mem) (hh : t ∉ s.hist) :
    (∀ slOk, execScaleOut false slOk = ⟨false, false, false, false, []⟩)
    ∧ (execScaleOut true false).memMarked = true
    ∧ (execScaleOut true false).dbMarked = true
    ∧ (execScaleOut true false).alerts = []
    ∧ soStep s (SOEvent.visit t elig hOk false dbOk) = s := by
  refine ⟨fun slOk => rfl, rfl, rfl, rfl, ?_⟩
  simp only [soStep, hm, hh]
  cases elig <;> simp

/-- Witness for C7 as amended on a fresh state. -/
theorem scale_out_error_handling_w :
    ((7 : ℕ) ∉ (⟨[], [], [], []⟩ : SOState).mem ∧ (7 : ℕ) ∉ (⟨[], [], [], []⟩ : SOState).hist)
    ∧ ((∀ slOk, execScaleOut false slOk = ⟨false, false, false, false, []⟩)
      ∧ (execScaleOut true false).memMarked = true
      ∧ (execScaleOut true false).dbMarked = true
      ∧ (execScaleOut true false).alerts = []
      ∧ soStep ⟨[], [], [], []⟩ (SOEvent.visit 7 true true false true) = ⟨[], [], [], []⟩) :=
  ⟨⟨by simp, by simp⟩,
    scale_out_error_handling ⟨[], [], [], []⟩ 7 true true true (by simp) (by simp)⟩

/-- Counterexample for C1: the break-even move after a partial close is
issued with no ratchet guard, so it can lower the stored stop of a long
position.  Open 2000, trailing distance 50 points, point 1: a trailing pass
at price 2120 stores stop 2070, then the break-even move stores 2000 —
a strict decrease. -/
theorem breakEven_lowers_long_stop :
    slRunBuy 2000 50 1 0 [SLEvent.trail 2120] = 2070
    ∧ slRunBuy 2000 50 1 0 [SLEvent.trail 2120, SLEvent.breakEven] = 2000
    ∧ (2000 : ℚ) < 2070 := by
  norm_num [slRunBuy, slStepBuy, trailStepBuy, trailCandBuy]

/-- Counterexample for C2: the trailing candidate is computed from the
instantaneous current price, not from the running peak.  Open 2000, distance
50, point 1, prices 2100 then 2050 (both past activation, running peak
2100): the code's candidate at the second tick is 2000 while the claimed
peak-based candidate is 2050; the ratchet then rejects the code's candidate
and the stored stop stays 2050. -/
theorem trail_candidate_uses_current_price :
    trailCandBuy 50 1 2050 = 2000
    ∧ specCandBuy 50 1 2100 = 2050
    ∧ trailStepBuy 2000 50 1 (trailStepBuy 2000 50 1 0 2100) 2050 = 2050
    ∧ trailCandBuy 50 1 2050 ≠ specCandBuy 50 1 2100 := by
  norm_num [trailCandBuy, specCandBuy, trailStepBuy]

/-- Claim C9: on a HOLD signal carrying a positive suggested stop with a
position open, the stop-modification call for a long position is issued
exactly when the suggested stop strictly improves the stored stop or the
stored stop is unset; a suggestion at or below a long's set stop is never
applied, one above it always is; symmetrically for a short position. -/
theorem hold_ratchet_iff (s : ℚ) (p : Position) (hs : 0 < s) :
    (p.ptype = PosType.buy →
      (((p.ticket, s) ∈ holdRatchetUpdates Signal.hold (some s) 1 [p]) ↔
          (p.sl = 0 ∨ p.sl < s))
      ∧ (p.sl ≠ 0 → s ≤ p.sl → holdRatchetUpdates Signal.hold (some s) 1 [p] = [])
      ∧ (p.sl < s → holdRatchetUpdates Signal.hold (some s) 1 [p] = [(p.ticket, s)]))
    ∧ (p.ptype = PosType.sell →
      (((p.ticket, s) ∈ holdRatchetUpdates Signal.hold (some s) (-1) [p]) ↔
          (p.sl = 0 ∨ s < p.sl))) := by
  constructor
  · intro hb
    refine ⟨?_, ?_, ?_⟩
    · simp [holdRatchetUpdates, hs, hb, List.filterMap]
      split_ifs with h
      · simpa using h
      · push_neg at h
        simp [h.1, not_lt.mpr h.2]
    · intro h0 hle
      simp [holdRatchetUpdates, hs, hb, List.filterMap, h0, not_lt.mpr hle]
    · intro hlt
      simp [holdRatchetUpdates, hs, hb, List.filterMap, hlt]
  · intro hb
    simp [holdRatchetUpdates, hs, hb, List.filterMap]
    split_ifs with h
    · simpa using h
    · push_neg at h
      simp [h.1, not_lt.mpr h.2]

/-- Witness for C9: a long at stop 2010 with suggestion 2050. -/
theorem hold_ratchet_iff_w :
    (0 : ℚ) < 2050 ∧
      ((⟨11, PosType.buy, 2000, 2010, 1, 0, 0⟩ : Position).ptype = PosType.buy →
        (((11, (2050 : ℚ)) ∈
            holdRatchetUpdates Signal.hold (some 2050) 1
              [⟨11, PosType.buy, 2000, 2010, 1, 0, 0⟩]) ↔
          ((⟨11, PosType.buy, 2000, 2010, 1, 0, 0⟩ : Position).sl = 0 ∨
            (⟨11, PosType.buy, 2000, 2010, 1, 0, 0⟩ : Position).sl < 2050))
        ∧ ((⟨11, PosType.buy, 2000, 2010, 1, 0, 0⟩ : Position).sl ≠ 0 →
            (2050 : ℚ) ≤ (⟨11, PosType.buy, 2000, 2010, 1, 0, 0⟩ : Position).sl →
            holdRatchetUpdates Signal.hold (some 2050) 1
              [⟨11, PosType.buy, 2000, 2010, 1, 0, 0⟩] = [])
        ∧ ((⟨11, PosType.buy, 2000, 2010, 1, 0, 0⟩ : Position).sl < 2050 →
            holdRatchetUpdates Signal.hold (some 2050) 1
              [⟨11, PosType.buy, 2000, 2010, 1, 0, 0⟩] = [(11, 2050)])) :=
  ⟨by norm_num, (hold_ratchet_iff 2050 ⟨11, PosType.buy, 2000, 2010, 1, 0, 0⟩ (by norm_num)).1⟩

/-- Claim C4: with account info available, the risk check halts exactly when
the nonzero min-equity floor is undershot or the nonzero max-daily-loss is
exceeded in loss; close-all is invoked exactly on a halt; close-all issues
exactly one close order per open position across all symbols; and on a halt
the main loop's running flag drops. -/
theorem risk_halt_iff (minEq maxLoss pnl : ℚ) (a : Account) (ps : List Position)
    (hnd : (ps.map Position.ticket).Nodup) :
    ((check_risk_limits minEq maxLoss (some a) pnl).1 = false ↔
      ((0 < minEq ∧ a.equity < minEq) ∨ (0 < maxLoss ∧ pnl < -maxLoss)))
    ∧ ((check_risk_limits minEq maxLoss (some a) pnl).2 =
        !(check_risk_limits minEq maxLoss (some a) pnl).1)
    ∧ (∀ p ∈ ps, ((close_all_requests ps).map CloseReq.ticket).count p.ticket = 1)
    ∧ ((check_risk_limits minEq maxLoss (some a) pnl).1 = false →
        loopGate true (check_risk_limits minEq maxLoss (some a) pnl).1 = false) := by
  have hmap : (close_all_requests ps).map CloseReq.ticket = ps.map Position.ticket := by
    simp [close_all_requests, List.map_map, Function.comp]
  refine ⟨?_, ?_, ?_, ?_⟩
  · unfold check_risk_limits
    split_ifs with h1 h2 <;> simp_all
  · unfold check_risk_limits
    split_ifs <;> rfl
  · intro p hp
    rw [hmap]
    exact List.count_eq_one_of_mem hnd (List.mem_map_of_mem _ hp)
  · intro h
    rw [h]
    rfl

/-- Witness for C4: daily loss one dollar past the configured limit. -/
theorem risk_halt_iff_w :
    (([⟨21, PosType.buy, 2000, 0, 1, 0, 0⟩] : List Position).map Position.ticket).Nodup
    ∧ (((check_risk_limits 0 500 (some ⟨10000, 10000⟩) (-501)).1 = false ↔
        ((0 < (0:ℚ) ∧ (⟨10000, 10000⟩ : Account).equity < 0) ∨
          (0 < (500:ℚ) ∧ (-501 : ℚ) < -500)))
      ∧ ((check_risk_limits 0 500 (some ⟨10000, 10000⟩) (-501)).2 =
          !(check_risk_limits 0 500 (some ⟨10000, 10000⟩) (-501)).1)
      ∧ (∀ p ∈ ([⟨21, PosType.buy, 2000, 0, 1, 0, 0⟩] : List Position),
          ((close_all_requests [⟨21, PosType.buy, 2000, 0, 1, 0, 0⟩]).map
            CloseReq.ticket).count p.ticket = 1)
      ∧ ((check_risk_limits 0 500 (some ⟨10000, 10000⟩) (-501)).1 = false →
          loopGate true (check_risk_limits 0 500 (some ⟨10000, 10000⟩) (-501)).1 = false)) :=
  ⟨by simp, risk_halt_iff 0 500 (-501) ⟨10000, 10000⟩ [⟨21, PosType.buy, 2000, 0, 1, 0, 0⟩] (by simp)⟩

/-! ### Monotonicity of trailing and HOLD-ratchet updates (C1) -/

/-- One trailing or HOLD-ratchet event never lowers a long position's stop. -/
lemma slStepBuy_le (op dist point sl : ℚ) (e : SLEvent) (hpt : 0 < point)
    (hop : 0 ≤ op) (he : e ≠ SLEvent.breakEven) :
    sl ≤ slStepBuy op dist point sl e := by
  cases e with
  | trail price =>
      simp only [slStepBuy, trailStepBuy, trailCandBuy]
      split_ifs with hact himp
      · have hdp : dist * point ≤ price - op := (le_div_iff₀ hpt).mp hact
        rcases himp with h0 | hlt
        · rw [h0]; linarith
        · linarith
      · exact le_refl sl
      · exact le_refl sl
  | ratchet s =>
      simp only [slStepBuy]
      split_ifs with h
      · rcases h with ⟨hs, h0 | hlt⟩
        · rw [h0]; linarith
        · linarith
      · exact le_refl sl
  | breakEven => exact absurd rfl he

/-- One trailing or HOLD-ratchet event never raises a short position's set
stop, and keeps it positive. -/
lemma slStepSell_le (op dist point sl : ℚ) (e : SLEvent) (hpt : 0 < point)
    (hd : 0 ≤ dist) (hsl : 0 < sl) (he : e ≠ SLEvent.breakEven)
    (hq : ∀ q, e = SLEvent.trail q → 0 < q) :
    slStepSell op dist point sl e ≤ sl ∧ 0 < slStepSell op dist point sl e := by
  cases e with
  | trail price =>
      have hpos : 0 < price := hq price rfl
      have hdp : 0 ≤ dist * point := mul_nonneg hd hpt.le
      simp only [slStepSell, trailStepSell, trailCandSell]
      split_ifs with hact himp
      · rcases himp with h0 | hlt
        · rw [h0] at hsl; exact absurd hsl (lt_irrefl 0)
        · exact ⟨hlt.le, by linarith⟩
      · exact ⟨le_refl sl, hsl⟩
      · exact ⟨le_refl sl, hsl⟩
  | ratchet s =>
      simp only [slStepSell]
      split_ifs with h
      · rcases h with ⟨hs, h0 | hlt⟩
        · rw [h0] at hsl; exact absurd hsl (lt_irrefl 0)
        · exact ⟨hlt.le, hs⟩
      · exact ⟨le_refl sl, hsl⟩
  | breakEven => exact absurd rfl he

/-- Fold form of `slStepBuy_le`. -/
lemma slRunBuy_le (op dist point : ℚ) (hpt : 0 < point) (hop : 0 ≤ op) :
    ∀ (evs : List SLEvent), SLEvent.breakEven ∉ evs →
      ∀ sl, sl ≤ slRunBuy op dist point sl evs := by
  intro evs
  induction evs with
  | nil => intro _ sl; simp [slRunBuy]
  | cons e rest ih =>
      intro hnb sl
      have he : e ≠ SLEvent.breakEven := fun h => hnb (h ▸ List.mem_cons_self e rest)
      have hrest : SLEvent.breakEven ∉ rest := fun h => hnb (List.mem_cons_of_mem e h)
      have h1 := slStepBuy_le op dist point sl e hpt hop he
      have h2 := ih hrest (slStepBuy op dist point sl e)
      simpa [slRunBuy, List.foldl_cons] using le_trans h1 h2

/-- Fold form of `slStepSell_le`. -/
lemma slRunSell_le (op dist point : ℚ) (hpt : 0 < point) (hd : 0 ≤ dist) :
    ∀ (evs : List SLEvent), SLEvent.breakEven ∉ evs →
      (∀ q, SLEvent.trail q ∈ evs → 0 < q) →
      ∀ sl, 0 < sl → slRunSell op dist point sl evs ≤ sl ∧
        0 < slRunSell op dist point sl evs := by
  intro evs
  induction evs with
  | nil => intro _ _ sl hsl; simp [slRunSell]; exact hsl
  | cons e rest ih =>
      intro hnb hq sl hsl
      have he : e ≠ SLEvent.breakEven := fun h => hnb (h ▸ List.mem_cons_self e rest)
      have hrest : SLEvent.breakEven ∉ rest := fun h => hnb (List.mem_cons_of_mem e h)
      have hqe : ∀ q, e = SLEvent.trail q → 0 < q :=
        fun q h => hq q (h ▸ List.mem_cons_self e rest)
      have hqrest : ∀ q, SLEvent.trail q ∈ rest → 0 < q :=
        fun q h => hq q (List.mem_cons_of_mem e h)
      have h1 := slStepSell_le op dist point sl e hpt hd hsl he hqe
      have h2 := ih hrest hqrest (slStepSell op dist point sl e) h1.2
      constructor
      · simpa [slRunSell, List.foldl_cons] using le_trans h2.1 h1.1
      · simpa [slRunSell, List.foldl_cons] using h2.2

/-- Claim C1 as amended: over every sequence of trailing-stop updates and
HOLD-signal ratchet updates the stored stop of a long position is
monotonically non-decreasing and that of a short position (once set) is
monotonically non-increasing; the break-even move after a partial close is
excluded, since it unconditionally resets the stop to the open price and can
lower a long's trailed stop (`breakEven_lowers_long_stop`). -/
theorem trail_hold_stop_monotone (op dist point : ℚ) (evs : List SLEvent)
    (hpt : 0 < point) (hop : 0 ≤ op) (hd : 0 ≤ dist)
    (hnb : SLEvent.breakEven ∉ evs)
    (hpr : ∀ q, SLEvent.trail q ∈ evs → 0 < q) :
    (∀ sl0, sl0 ≤ slRunBuy op dist point sl0 evs)
    ∧ (∀ sl0, 0 < sl0 → slRunSell op dist point sl0 evs ≤ sl0) :=
  ⟨fun sl0 => slRunBuy_le op dist point hpt hop evs hnb sl0,
   fun sl0 hsl => (slRunSell_le op dist point hpt hd evs hnb hpr sl0 hsl).1⟩

/-- Witness for C1 as amended: a trailing pass then a ratchet pass on a
long position with stop 2050 keeps the stop at or above 2050. -/
theorem trail_hold_stop_monotone_w :
    ((0:ℚ) < 1 ∧ (0:ℚ) ≤ 2000 ∧ (0:ℚ) ≤ 50
      ∧ SLEvent.breakEven ∉ [SLEvent.trail 2100, SLEvent.ratchet 2060]
      ∧ (∀ q, SLEvent.trail q ∈ [SLEvent.trail 2100, SLEvent.ratchet 2060] → 0 < q))
    ∧ (2050 : ℚ) ≤ slRunBuy 2000 50 1 2050 [SLEvent.trail 2100, SLEvent.ratchet 2060] := by
  have h1 : (0:ℚ) < 1 := by norm_num
  have h2 : (0:ℚ) ≤ 2000 := by norm_num
  have h3 : (0:ℚ) ≤ 50 := by norm_num
  have h4 : SLEvent.breakEven ∉ [SLEvent.trail 2100, SLEvent.ratchet 2060] := by decide
  have h5 : ∀ q, SLEvent.trail q ∈ [SLEvent.trail (2100:ℚ), SLEvent.ratchet 2060] → 0 < q := by
    intro q hqmem
    rcases List.mem_cons.mp hqmem with h | h
    · cases h; norm_num
    · rcases List.mem_cons.mp h with h | h
      · cases h
      · cases h
  exact ⟨⟨h1, h2, h3, h4, h5⟩,
    (trail_hold_stop_monotone 2000 50 1 [SLEvent.trail 2100, SLEvent.ratchet 2060]
      h1 h2 h3 h4 h5).1 2050⟩

/-! ### Extensional equality of the code's trailing fold with the spec's
running-extreme stop (C2) -/

/-- The start value never exceeds a left fold of `max`. -/
lemma le_foldl_max (l : List ℚ) : ∀ x : ℚ, x ≤ l.foldl max x := by
  induction l with
  | nil => intro x; simp
  | cons y rest ih =>
      intro x
      calc x ≤ max x y := le_max_left x y
        _ ≤ rest.foldl max (max x y) := ih (max x y)
        _ = (y :: rest).foldl max x := by simp [List.foldl_cons]

/-- A left fold of `min` never exceeds its start value. -/
lemma foldl_min_le (l : List ℚ) : ∀ x : ℚ, l.foldl min x ≤ x := by
  induction l with
  | nil => intro x; simp
  | cons y rest ih =>
      intro x
      calc (y :: rest).foldl min x = rest.foldl min (min x y) := by simp [List.foldl_cons]
        _ ≤ min x y := ih (min x y)
        _ ≤ x := min_le_left x y

/-- A left fold of `min` over positives from a positive start is positive. -/
lemma foldl_min_pos (l : List ℚ) : ∀ x : ℚ, 0 < x → (∀ q ∈ l, 0 < q) →
    0 < l.foldl min x := by
  induction l with
  | nil => intro x hx _; simpa using hx
  | cons y rest ih =>
      intro x hx hl
      have hy : 0 < y := hl y (List.mem_cons_self y rest)
      have : 0 < min x y := lt_min hx hy
      simpa [List.foldl_cons] using ih (min x y) this
        (fun q hq => hl q (List.mem_cons_of_mem y hq))

/-- Ratcheting two positive candidates upward, one after the other, is the
same as ratcheting their maximum once. -/
lemma ratchet_buy_twice (sl0 c1 c2 : ℚ) (hsl : 0 ≤ sl0) (h1 : 0 < c1) (h2 : 0 < c2) :
    (if (if sl0 = 0 ∨ sl0 < c1 then c1 else sl0) = 0 ∨
        (if sl0 = 0 ∨ sl0 < c1 then c1 else sl0) < c2 then c2
      else (if sl0 = 0 ∨ sl0 < c1 then c1 else sl0)) =
    (if sl0 = 0 ∨ sl0 < max c1 c2 then max c1 c2 else sl0) := by
  rcases eq_or_lt_of_le hsl with h0 | hpos
  · have hsl0 : sl0 = 0 := h0.symm
    rw [if_pos (Or.inl hsl0), if_pos (Or.inl hsl0)]
    by_cases hcc : c1 < c2
    · rw [if_pos (Or.inr hcc), max_eq_right hcc.le]
    · rw [if_neg (fun h => h.elim (ne_of_gt h1) hcc), max_eq_left (not_lt.mp hcc)]
  · have hne : sl0 ≠ 0 := ne_of_gt hpos
    by_cases h1c : sl0 < c1
    · rw [if_pos (Or.inr h1c)]
      by_cases h2c : c1 < c2
      · rw [if_pos (Or.inr h2c), if_pos (Or.inr (lt_of_lt_of_le h1c (le_max_left c1 c2))),
          max_eq_right h2c.le]
      · rw [if_neg (fun h => h.elim (ne_of_gt h1) h2c),
          max_eq_left (not_lt.mp h2c), if_pos (Or.inr h1c)]
    · have hinner : (if sl0 = 0 ∨ sl0 < c1 then c1 else sl0) = sl0 :=
        if_neg (fun h => h.elim hne h1c)
      rw [hinner]
      by_cases h2c : sl0 < c2
      · rw [if_pos (Or.inr h2c), if_pos (Or.inr (lt_of_lt_of_le h2c (le_max_right c1 c2))),
          max_eq_right (le_trans (not_lt.mp h1c) h2c.le)]
      · have hm : ¬ sl0 < max c1 c2 := by
          rw [not_lt, max_le_iff]
          exact ⟨not_lt.mp h1c, not_lt.mp h2c⟩
        rw [if_neg (fun h => h.elim hne h2c), if_neg (fun h => h.elim hne hm)]

/-- Ratcheting two positive candidates downward, one after the other, is the
same as ratcheting their minimum once. -/
lemma ratchet_sell_twice (sl0 c1 c2 : ℚ) (hsl : 0 ≤ sl0) (h1 : 0 < c1) (h2 : 0 < c2) :
    (if (if sl0 = 0 ∨ c1 < sl0 then c1 else sl0) = 0 ∨
        c2 < (if sl0 = 0 ∨ c1 < sl0 then c1 else sl0) then c2
      else (if sl0 = 0 ∨ c1 < sl0 then c1 else sl0)) =
    (if sl0 = 0 ∨ min c1 c2 < sl0 then min c1 c2 else sl0) := by
  rcases eq_or_lt_of_le hsl with h0 | hpos
  · have hsl0 : sl0 = 0 := h0.symm
    rw [if_pos (Or.inl hsl0), if_pos (Or.inl hsl0)]
    by_cases hcc : c2 < c1
    · rw [if_pos (Or.inr hcc), min_eq_right hcc.le]
    · rw [if_neg (fun h => h.elim (ne_of_gt h1) hcc), min_eq_left (not_lt.mp hcc)]
  · have hne : sl0 ≠ 0 := ne_of_gt hpos
    by_cases h1c : c1 < sl0
    · rw [if_pos (Or.inr h1c)]
      by_cases h2c : c2 < c1
      · rw [if_pos (Or.inr h2c), if_pos (Or.inr (lt_of_le_of_lt (min_le_left c1 c2) h1c)),
          min_eq_right h2c.le]
      · rw [if_neg (fun h => h.elim (ne_of_gt h1) h2c),
          min_eq_left (not_lt.mp h2c), if_pos (Or.inr h1c)]
    · have hinner : (if sl0 = 0 ∨ c1 < sl0 then c1 else sl0) = sl0 :=
        if_neg (fun h => h.elim hne h1c)
      rw [hinner]
      by_cases h2c : c2 < sl0
      · rw [if_pos (Or.inr h2c), if_pos (Or.inr (lt_of_le_of_lt (min_le_right c1 c2) h2c)),
          min_eq_right (le_of_lt (lt_of_lt_of_le h2c (not_lt.mp h1c)))]
      · have hm : ¬ min c1 c2 < sl0 := by
          rw [not_lt, le_min_iff]
          exact ⟨not_lt.mp h1c, not_lt.mp h2c⟩
        rw [if_neg (fun h => h.elim hne h2c), if_neg (fun h => h.elim hne hm)]

/-- Splitting a history over append splits the long activation filter. -/
lemma actBuy_append (op dist point : ℚ) (l l2 : List ℚ) :
    actBuy op dist point (l ++ l2) = actBuy op dist point l ++ actBuy op dist point l2 := by
  simp [actBuy, List.filter_append]

/-- Splitting a history over append splits the short activation filter. -/
lemma actSell_append (op dist point : ℚ) (l l2 : List ℚ) :
    actSell op dist point (l ++ l2) = actSell op dist point l ++ actSell op dist point l2 := by
  simp [actSell, List.filter_append]

/-- Appending one more current price to the history commutes the spec's
running-peak stop with one code trailing pass. -/
lemma specPeakStopBuy_snoc (op dist point sl0 : ℚ) (hpt : 0 < point)
    (hop : 0 < op) (hsl : 0 ≤ sl0) (l : List ℚ) (q : ℚ) :
    specPeakStopBuy op dist point sl0 (l ++ [q]) =
      trailStepBuy op dist point (specPeakStopBuy op dist point sl0 l) q := by
  unfold specPeakStopBuy
  rw [actBuy_append]
  by_cases hq : dist ≤ (q - op) / point
  · have hq2 : dist * point ≤ q - op := (le_div_iff₀ hpt).mp hq
    have hc2 : 0 < q - dist * point := by linarith
    have hfq : actBuy op dist point [q] = [q] := by simp [actBuy, hq]
    rw [hfq]
    cases hA : actBuy op dist point l with
    | nil =>
        simp only [List.nil_append, List.foldl_nil, trailStepBuy, trailCandBuy]
        rw [if_pos hq]
    | cons a rest =>
        have ha : a ∈ actBuy op dist point l := by
          rw [hA]; exact List.mem_cons_self a rest
        have haact : dist ≤ (a - op) / point := by
          simpa [actBuy] using (List.of_mem_filter ha)
        have hpa : a ≤ rest.foldl max a := le_foldl_max rest a
        have hc1 : 0 < rest.foldl max a - dist * point := by
          have := (le_div_iff₀ hpt).mp haact
          linarith
        simp only [List.cons_append, List.foldl_append, List.foldl_cons, List.foldl_nil,
          trailStepBuy, trailCandBuy]
        rw [if_pos hq]
        rw [show max (rest.foldl max a) q - dist * point =
            max (rest.foldl max a - dist * point) (q - dist * point) from
          (max_sub_sub_right (rest.foldl max a) q (dist * point)).symm]
        exact (ratchet_buy_twice sl0 (rest.foldl max a - dist * point)
          (q - dist * point) hsl hc1 hc2).symm
  · have hfq : actBuy op dist point [q] = [] := by simp [actBuy, hq]
    rw [hfq, List.append_nil]
    cases actBuy op dist point l with
    | nil =>
        simp only [trailStepBuy, trailCandBuy]
        rw [if_neg hq]
    | cons a rest =>
        simp only [trailStepBuy, trailCandBuy]
        rw [if_neg hq]

/-- Appending one more current price to the history commutes the spec's
running-trough stop with one code trailing pass. -/
lemma specTroughStopSell_snoc (op dist point sl0 : ℚ) (hpt : 0 < point)
    (hd : 0 ≤ dist) (hsl : 0 ≤ sl0) (l : List ℚ) (q : ℚ)
    (hpr : ∀ r ∈ l, 0 < r) (hq0 : 0 < q) :
    specTroughStopSell op dist point sl0 (l ++ [q]) =
      trailStepSell op dist point (specTroughStopSell op dist point sl0 l) q := by
  unfold specTroughStopSell
  rw [actSell_append]
  have hdp : 0 ≤ dist * point := mul_nonneg hd hpt.le
  by_cases hq : dist ≤ (op - q) / point
  · have hc2 : 0 < q + dist * point := by linarith
    have hfq : actSell op dist point [q] = [q] := by simp [actSell, hq]
    rw [hfq]
    cases hA : actSell op dist point l with
    | nil =>
        simp only [List.nil_append, List.foldl_nil, trailStepSell, trailCandSell]
        rw [if_pos hq]
    | cons a rest =>
        have hamem : ∀ r ∈ actSell op dist point l, 0 < r := by
          intro r hr
          exact hpr r (List.mem_of_mem_filter hr)
        have hapos : 0 < a := by
          apply hamem a
          rw [hA]; exact List.mem_cons_self a rest
        have hrestpos : ∀ r ∈ rest, 0 < r := by
          intro r hr
          apply hamem r
          rw [hA]; exact List.mem_cons_of_mem a hr
        have htr : 0 < rest.foldl min a := foldl_min_pos rest a hapos hrestpos
        have hc1 : 0 < rest.foldl min a + dist * point := by linarith
        simp only [List.cons_append, List.foldl_append, List.foldl_cons, List.foldl_nil,
          trailStepSell, trailCandSell]
        rw [if_pos hq]
        rw [show min (rest.foldl min a) q + dist * point =
            min (rest.foldl min a + dist * point) (q + dist * point) from
          (min_add_add_right (rest.foldl min a) q (dist * point)).symm]
        exact (ratchet_sell_twice sl0 (rest.foldl min a + dist * point)
          (q + dist * point) hsl hc1 hc2).symm
  · have hfq : actSell op dist point [q] = [] := by simp [actSell, hq]
    rw [hfq, List.append_nil]
    cases actSell op dist point l with
    | nil =>
        simp only [trailStepSell, trailCandSell]
        rw [if_neg hq]
    | cons a rest =>
        simp only [trailStepSell, trailCandSell]
        rw [if_neg hq]

/-- Claim C2 as amended: the per-tick candidate is computed from the
instantaneous current price (`trailCandBuy`/`trailCandSell`), but combined
with the monotone ratchet the stored stop after any sequence of trailing
passes equals the stop the spec describes from the running peak (longs) or
trough (shorts): the two computations agree extensionally. -/
theorem trail_fold_eq_peak_stop (op dist point sl0 : ℚ) (prices : List ℚ)
    (hpt : 0 < point) (hop : 0 < op) (hsl : 0 ≤ sl0) (hd : 0 ≤ dist)
    (hpr : ∀ q ∈ prices, 0 < q) :
    trailRunBuy op dist point sl0 prices = specPeakStopBuy op dist point sl0 prices
    ∧ trailRunSell op dist point sl0 prices = specTroughStopSell op dist point sl0 prices := by
  induction prices using List.reverseRecOn with
  | nil => simp [trailRunBuy, trailRunSell, specPeakStopBuy, specTroughStopSell, actBuy, actSell]
  | append_singleton l q ih =>
      have hprl : ∀ r ∈ l, 0 < r := fun r hr => hpr r (List.mem_append_left [q] hr)
      have hq0 : 0 < q := hpr q (List.mem_append_right l (List.mem_cons_self q []))
      have ihl := ih hprl
      constructor
      · rw [trailRunBuy, List.foldl_append, List.foldl_cons, List.foldl_nil,
          specPeakStopBuy_snoc op dist point sl0 hpt hop hsl l q]
        rw [← trailRunBuy, ihl.1]
      · rw [trailRunSell, List.foldl_append, List.foldl_cons, List.foldl_nil,
          specTroughStopSell_snoc op dist point sl0 hpt hd hsl l q hprl hq0]
        rw [← trailRunSell, ihl.2]

/-- Witness for C2 as amended: open 2000, distance 50, point 1, prices 2100
then 2050; both folds agree with the running-extreme formulas. -/
theorem trail_fold_eq_peak_stop_w :
    ((0:ℚ) < 1 ∧ (0:ℚ) < 2000 ∧ (0:ℚ) ≤ 0 ∧ (0:ℚ) ≤ 50
      ∧ (∀ q ∈ [(2100:ℚ), 2050], 0 < q))
    ∧ (trailRunBuy 2000 50 1 0 [2100, 2050] = specPeakStopBuy 2000 50 1 0 [2100, 2050]
      ∧ trailRunSell 2000 50 1 0 [2100, 2050] = specTroughStopSell 2000 50 1 0 [2100, 2050]) := by
  have hpr : ∀ q ∈ [(2100:ℚ), 2050], 0 < q := by
    intro q hq
    rcases List.mem_cons.mp hq with h | h
    · rw [h]; norm_num
    · rcases List.mem_cons.mp h with h | h
      · rw [h]; norm_num
      · cases h
  exact ⟨⟨by norm_num, by norm_num, le_refl 0, by norm_num, hpr⟩,
    trail_fold_eq_peak_stop 2000 50 1 0 [2100, 2050] (by norm_num) (by norm_num)
      (le_refl 0) (by norm_num) hpr⟩

/-! ### Partial close happens at most once per ticket (C5) -/

/-- Every partial-close event with a reliable broker-history scan preserves
the invariant. -/
lemma soStep_inv (s : SOState) (e : SOEvent) (hrel : histReliable e)
    (h : soInv s) : soInv (soStep s e) := by
  cases e with
  | visit t elig hOk closeOk dbOk =>
      have hOktrue : hOk = true := hrel
      subst hOktrue
      by_cases h1 : t ∈ s.mem
      · simpa [soStep, h1] using h
      · by_cases h2 : elig = true
        · by_cases h3 : t ∈ s.hist
          · simpa [soStep, h1, h2, h3] using h
          · by_cases h4 : closeOk = true
            · have hstep : soStep s (SOEvent.visit t elig true closeOk dbOk) =
                  { mem := t :: s.mem,
                    flagged := if dbOk then t :: s.flagged else s.flagged,
                    hist := t :: s.hist, execs := t :: s.execs } := by
                simp [soStep, h1, h2, h3, h4]
              intro u
              have htne : t ∉ s.execs := fun hm => h3 ((h t).2 hm)
              rw [hstep]
              constructor
              · by_cases hu : u = t
                · subst hu
                  simp [List.count_cons, List.count_eq_zero.mpr htne]
                · simpa [List.count_cons, hu] using (h u).1
              · intro hm
                rcases List.mem_cons.mp hm with hm | hm
                · exact hm ▸ List.mem_cons_self t s.hist
                · exact List.mem_cons_of_mem t ((h u).2 hm)
            · have h4f : closeOk = false := by
                cases closeOk
                · rfl
                · exact absurd rfl h4
              simpa [soStep, h1, h2, h3, h4f] using h
        · have h2f : elig = false := by
            cases elig
            · rfl
            · exact absurd rfl h2
          simpa [soStep, h1, h2f] using h
  | visitCrash t elig hOk =>
      have hOktrue : hOk = true := hrel
      subst hOktrue
      by_cases h1 : t ∈ s.mem
      · simpa [soStep, h1] using h
      · by_cases h2 : elig = true ∧ t ∉ s.hist
        · have hstep : soStep s (SOEvent.visitCrash t elig true) =
              { s with hist := t :: s.hist, execs := t :: s.execs } := by
            simp [soStep, h1, h2.1, h2.2]
          intro u
          have htne : t ∉ s.execs := fun hm => h2.2 ((h t).2 hm)
          rw [hstep]
          constructor
          · by_cases hu : u = t
            · subst hu
              simp [List.count_cons, List.count_eq_zero.mpr htne]
            · simpa [List.count_cons, hu] using (h u).1
          · intro hm
            rcases List.mem_cons.mp hm with hm | hm
            · exact hm ▸ List.mem_cons_self t s.hist
            · exact List.mem_cons_of_mem t ((h u).2 hm)
        · have hstep : soStep s (SOEvent.visitCrash t elig true) = s := by
            rcases Decidable.not_and_iff_or_not.mp h2 with he | hh
            · have : elig = false := by
                cases elig
                · rfl
                · exact absurd rfl he
              simp [soStep, h1, this]
            · have hh2 : t ∈ s.hist := Decidable.not_not.mp hh
              simp [soStep, h1, hh2]
          rw [hstep]
          exact h
  | restart =>
      simpa [soStep] using h

/-- Counterexample for C5: a partial close whose store write silently fails
(`database_manager.py` swallows the error), followed by a restart more than
30 days later — the in-memory set is rebuilt empty, the store flag was never
written, and the 30-day history lookback of `_has_partial_close_history`
(or a failing history query) no longer sees the day-0 "Partial Close" deal —
lets `check_partial_close` execute a second partial close for the same
ticket. -/
theorem stale_history_double_exec :
    (soRun [SOEvent.visit 7 true true true false, SOEvent.restart,
        SOEvent.visit 7 true false true true]).execs.count 7 = 2
    ∧ ¬ ((soRun [SOEvent.visit 7 true true true false, SOEvent.restart,
        SOEvent.visit 7 true false true true]).execs.count 7 ≤ 1) := by
  constructor
  · decide
  · decide

/-- Claim C5 as amended: a ticket's partial close is executed at most once
over any sequence of checks, crashes, restarts and silently failed store
writes, provided every broker-history cross-check performed is reliable —
the prior partial-close deal, if any, lies within the 30-day lookback of
`_has_partial_close_history` and the history query does not fail.  Without
that proviso the invariant fails (`stale_history_double_exec`). -/
theorem scale_out_at_most_once (evs : List SOEvent) (t : ℕ)
    (hrel : ∀ e ∈ evs, histReliable e) :
    (soRun evs).execs.count t ≤ 1 := by
  have main : ∀ (l : List SOEvent), (∀ e ∈ l, histReliable e) → ∀ (s : SOState),
      soInv s → soInv (l.foldl soStep s) := by
    intro l
    induction l with
    | nil => intro _ s h; exact h
    | cons e rest ih =>
        intro hl s h
        exact ih (fun x hx => hl x (List.mem_cons_of_mem e hx)) (soStep s e)
          (soStep_inv s e (hl e (List.mem_cons_self e rest)) h)
  have hinit : soInv ⟨[], [], [], []⟩ := by
    intro u
    constructor
    · simp
    · intro hm; cases hm
  exact ((main evs hrel ⟨[], [], [], []⟩ hinit) t).1

/-- Witness for C5 as amended: two reliable visits of the same ticket around
a restart execute it only once. -/
theorem scale_out_at_most_once_w :
    (∀ e ∈ [SOEvent.visit 7 true true true true, SOEvent.restart,
        SOEvent.visit 7 true true true true], histReliable e)
    ∧ (soRun [SOEvent.visit 7 true true true true, SOEvent.restart,
        SOEvent.visit 7 true true true true]).execs.count 7 ≤ 1 := by
  have hrel : ∀ e ∈ [SOEvent.visit 7 true true true true, SOEvent.restart,
      SOEvent.visit 7 true true true true], histReliable e := by
    intro e he
    rcases List.mem_cons.mp he with h | h
    · subst h; exact rfl
    · rcases List.mem_cons.mp h with h | h
      · subst h; exact trivial
      · rcases List.mem_cons.mp h with h | h
        · subst h; exact rfl
        · cases h
  exact ⟨hrel, scale_out_at_most_once
    [SOEvent.visit 7 true true true true, SOEvent.restart,
      SOEvent.visit 7 true true true true] 7 hrel⟩

/-! ### Reconciliation is idempotent (C6) -/

/-- Membership of active tickets, unfolded. -/
lemma mem_activeTickets (s : List DBRec) (t : ℕ) :
    t ∈ activeTickets s ↔ ∃ r ∈ s, r.status = TStatus.tOpen ∧ r.ticket = t := by
  simp only [activeTickets, get_active_trades, List.mem_map, List.mem_filter,
    decide_eq_true_eq]
  constructor
  · rintro ⟨r, ⟨hr, hst⟩, ht⟩
    exact ⟨r, hr, hst, ht⟩
  · rintro ⟨r, hr, hst, ht⟩
    exact ⟨r, ⟨hr, hst⟩, ht⟩

/-- `close_trade` removes exactly the closed ticket from the active set. -/
lemma activeTickets_close (s : List DBRec) (u t : ℕ) :
    t ∈ activeTickets (close_trade s u) ↔ (t ∈ activeTickets s ∧ t ≠ u) := by
  simp only [mem_activeTickets, close_trade, List.mem_map]
  constructor
  · rintro ⟨r, ⟨r0, hr0, rfl⟩, hst, ht⟩
    by_cases hu : r0.ticket = u
    · rw [if_pos hu] at hst
      exact absurd hst (by simp)
    · rw [if_neg hu] at hst ht
      exact ⟨⟨r0, hr0, hst, ht⟩, ht ▸ hu⟩
  · rintro ⟨⟨r0, hr0, hst, ht⟩, hne⟩
    have hr0u : r0.ticket ≠ u := by rw [ht]; exact hne
    refine ⟨(fun r => if r.ticket = u then { r with status := TStatus.tClosed } else r) r0,
      ⟨r0, hr0, rfl⟩, ?_, ?_⟩
    · dsimp only
      rw [if_neg hr0u]
      exact hst
    · dsimp only
      rw [if_neg hr0u]
      exact ht

/-- Fold form of `activeTickets_close`. -/
lemma activeTickets_close_fold (l : List ℕ) : ∀ (s : List DBRec) (t : ℕ),
    t ∈ activeTickets (l.foldl close_trade s) ↔ (t ∈ activeTickets s ∧ t ∉ l) := by
  induction l with
  | nil => intro s t; simp
  | cons u rest ih =>
      intro s t
      rw [List.foldl_cons, ih (close_trade s u) t, activeTickets_close]
      simp only [List.mem_cons]
      constructor
      · rintro ⟨⟨hm, hne⟩, hnr⟩
        exact ⟨hm, fun hc => hc.elim hne hnr⟩
      · rintro ⟨hm, hnc⟩
        exact ⟨⟨hm, fun he => hnc (Or.inl he)⟩, fun hr => hnc (Or.inr hr)⟩

/-- `save_trade` adds exactly the saved ticket to the active set. -/
lemma activeTickets_save (s : List DBRec) (u t : ℕ) :
    t ∈ activeTickets (save_trade s u) ↔ (t ∈ activeTickets s ∨ t = u) := by
  simp only [save_trade]
  by_cases hany : s.any (fun r => decide (r.ticket = u))
  · rw [if_pos hany]
    simp only [mem_activeTickets, List.mem_map]
    constructor
    · rintro ⟨r, ⟨r0, hr0, rfl⟩, hst, ht⟩
      by_cases hu : r0.ticket = u
      · rw [if_pos hu] at ht
        exact Or.inr ht.symm
      · rw [if_neg hu] at hst ht
        exact Or.inl ⟨r0, hr0, hst, ht⟩
    · rintro (⟨r0, hr0, hst, ht⟩ | rfl)
      · by_cases hu : r0.ticket = u
        · refine ⟨(fun r => if r.ticket = u then (⟨u, TStatus.tOpen⟩ : DBRec) else r) r0,
            ⟨r0, hr0, rfl⟩, ?_, ?_⟩
          · dsimp only
            rw [if_pos hu]
          · dsimp only
            rw [if_pos hu]
            rw [← ht, hu]
        · refine ⟨(fun r => if r.ticket = u then (⟨u, TStatus.tOpen⟩ : DBRec) else r) r0,
            ⟨r0, hr0, rfl⟩, ?_, ?_⟩
          · dsimp only
            rw [if_neg hu]
            exact hst
          · dsimp only
            rw [if_neg hu]
            exact ht
      · rcases List.any_eq_true.mp hany with ⟨r0, hr0, hdec⟩
        have hu : r0.ticket = t := of_decide_eq_true hdec
        refine ⟨(fun r => if r.ticket = t then (⟨t, TStatus.tOpen⟩ : DBRec) else r) r0,
          ⟨r0, hr0, rfl⟩, ?_, ?_⟩
        · dsimp only
          rw [if_pos hu]
        · dsimp only
          rw [if_pos hu]
  · rw [if_neg hany]
    simp only [mem_activeTickets, List.mem_append, List.mem_singleton]
    constructor
    · rintro ⟨r, hr | hr, hst, ht⟩
      · exact Or.inl ⟨r, hr, hst, ht⟩
      · rw [hr] at ht
        exact Or.inr ht.symm
    · rintro (⟨r, hr, hst, ht⟩ | rfl)
      · exact ⟨r, Or.inl hr, hst, ht⟩
      · exact ⟨⟨t, TStatus.tOpen⟩, Or.inr rfl, rfl, rfl⟩

/-- Fold form of `activeTickets_save`. -/
lemma activeTickets_save_fold (l : List ℕ) : ∀ (s : List DBRec) (t : ℕ),
    t ∈ activeTickets (l.foldl save_trade s) ↔ (t ∈ activeTickets s ∨ t ∈ l) := by
  induction l with
  | nil => intro s t; simp
  | cons u rest ih =>
      intro s t
      rw [List.foldl_cons, ih (save_trade s u) t, activeTickets_save]
      simp only [List.mem_cons]
      tauto

/-- After one reconciliation pass the active tickets of the store are
exactly the broker's tickets. -/
lemma activeTickets_reconcile (store : List DBRec) (broker : List ℕ) (t : ℕ) :
    t ∈ activeTickets (reconcile store broker).1 ↔ t ∈ broker := by
  simp only [reconcile]
  rw [activeTickets_save_fold, activeTickets_close_fold]
  simp [List.mem_filter]
  tauto

/-- A reconciliation pass over a store whose active tickets already agree
with the broker issues no mutation. -/
lemma reconcile_muts_nil (store : List DBRec) (broker : List ℕ)
    (h : ∀ t, t ∈ activeTickets store ↔ t ∈ broker) :
    (reconcile store broker).2 = [] := by
  have h1 : (activeTickets store).filter (fun t => decide (t ∉ broker)) = [] := by
    rw [List.filter_eq_nil_iff]
    intro a ha
    simp [(h a).mp ha]
  have h2 : broker.filter (fun t => decide (t ∉ activeTickets store)) = [] := by
    rw [List.filter_eq_nil_iff]
    intro a ha
    simp [(h a).mpr ha]
  simp only [reconcile]
  rw [h1, h2]
  simp

/-- Claim C6: reconciliation is idempotent — with no broker change between
the two runs, the second run issues no TradeStore mutation at all (and the
reconciler never issues an update call in the first place, so the mutation
list covers every kind of store write it performs). -/
theorem reconcile_idempotent (store : List DBRec) (broker : List ℕ) :
    (reconcile (reconcile store broker).1 broker).2 = [] :=
  reconcile_muts_nil (reconcile store broker).1 broker
    (activeTickets_reconcile store broker)

end AlphaQuant
